import Mathlib

set_option linter.unusedVariables false

/-!
Verification of the spatial reconstruction engine sketched in
`docs/auto_examples/simulated_patient_data.py` (functions `recon_no_expand`
and `corr`, lines 202-218), against the natural-language specification.

Modelling conventions:
* Machine floats are modelled by `RV := Option ℚ`: `some q` is a finite
  value, `none` stands for a non-finite float (NaN or ±Inf).  Arithmetic
  propagates `none`, and division by zero produces `none`, mirroring IEEE
  semantics at the finite/non-finite granularity that the claims use.
* `np.sqrt` is irrational on rationals, so every definition that needs a
  square root is parametrised by a function `sq : ℚ → ℚ` constrained by
  `SqrtOK` (the properties of the real square root that the code relies
  on); `Rat.sqrt` is a concrete instance used by the witnesses.
* Statically shaped numpy arrays are `Matrix (Fin m) (Fin n)`; the final
  `np.squeeze` of `recon_no_expand`, which is shape-dynamic, lands in the
  dynamic type `NDArray`.
-/

namespace SupereegSpec

/-- Float-like scalar: `some q` finite, `none` non-finite (NaN/Inf). -/
abbrev RV : Type := Option ℚ

/-- Addition, propagating non-finite values. -/
def radd : RV → RV → RV
  | some a, some b => some (a + b)
  | _, _ => none

/-- Multiplication, propagating non-finite values (as NaN does). -/
def rmul : RV → RV → RV
  | some a, some b => some (a * b)
  | _, _ => none

/-- Division: division by zero is non-finite (numpy 0/0 = nan, x/0 = inf). -/
def rdiv : RV → RV → RV
  | some a, some b => if b = 0 then none else some (a / b)
  | _, _ => none

/-- Clipping to [-1, 1] as in scipy pearsonr; NaN survives Python max/min. -/
def rclip : RV → RV
  | some a => some (max (min a 1) (-1))
  | none => none

/-- Sum of a list of float-like scalars (NaN-propagating). -/
def rsum (l : List RV) : RV := l.foldr radd (some 0)

/-- Mean of a list of rationals (`np.mean`). -/
def lmean (xs : List ℚ) : ℚ := xs.sum / (xs.length : ℚ)

/-- Sum of squares (`ss` helper used by scipy pearsonr). -/
def ss (xs : List ℚ) : ℚ := (xs.map (fun v => v * v)).sum

/-- Deviations from the mean of a list. -/
def devs (xs : List ℚ) : List ℚ := xs.map (fun v => v - lmean xs)

/-- Sum of squared deviations from the mean. -/
def ssdev (xs : List ℚ) : ℚ := ss (devs xs)

/-- The properties of the (real) square root that the reconstruction code
relies on: value at zero, strict positivity, and exactness on perfect
squares.  Definitions are parametrised by such a function because the
float `np.sqrt` is irrational on general rationals. -/
def SqrtOK (s : ℚ → ℚ) : Prop :=
  s 0 = 0 ∧ (∀ q : ℚ, 0 < q → 0 < s q) ∧ (∀ a : ℚ, 0 ≤ a → s (a * a) = a)

theorem ratSqrt_ok : SqrtOK Rat.sqrt := by
  refine ⟨by simp, ?_, ?_⟩
  · intro q hq
    have hnum : 0 < q.num := Rat.num_pos.mpr hq
    have hden : Nat.sqrt q.den ≠ 0 := (Nat.sqrt_pos.mpr q.pos).ne'
    have hne : Rat.sqrt q ≠ 0 := by
      unfold Rat.sqrt
      rw [Rat.mkRat_ne_zero hden]
      have : 0 < q.num.toNat := by omega
      have h2 : 0 < Nat.sqrt q.num.toNat := Nat.sqrt_pos.mpr this
      unfold Int.sqrt
      exact_mod_cast h2.ne'
    exact lt_of_le_of_ne (Rat.sqrt_nonneg q) (Ne.symm hne)
  · intro a ha
    rw [Rat.sqrt_eq, abs_of_nonneg ha]

/-! ### Matrices, index selection and the dynamic result array -/

/-- Total entry lookup in a rational matrix at natural-number indices
(out-of-range reads return a junk 0; validity hypotheses in the theorems
keep all reads in range, as the numpy fancy indexing of the source
requires). -/
def entryN {m n : ℕ} (M : Matrix (Fin m) (Fin n) ℚ) (i j : ℕ) : ℚ :=
  if h : i < m ∧ j < n then M ⟨i, h.1⟩ ⟨j, h.2⟩ else 0

/-- Row selection `M[rows, :]` by a list of natural indices. -/
def rowSel {m n : ℕ} (M : Matrix (Fin m) (Fin n) ℚ) (rows : List ℕ) :
    Matrix (Fin rows.length) (Fin n) ℚ :=
  fun i j => entryN M (rows.get i) j.val

/-- Column selection `M[:, cols]` by a list of natural indices. -/
def colSel {m n : ℕ} (M : Matrix (Fin m) (Fin n) ℚ) (cols : List ℕ) :
    Matrix (Fin m) (Fin cols.length) ℚ :=
  fun i j => entryN M i.val (cols.get j)

/-- Submatrix `M[rows, cols]` (the shape the spec describes directly). -/
def subM {m n : ℕ} (M : Matrix (Fin m) (Fin n) ℚ) (rows cols : List ℕ) :
    Matrix (Fin rows.length) (Fin cols.length) ℚ :=
  fun i j => entryN M (rows.get i) (cols.get j)

/-- Unobserved indices: `mo.locs.drop(known_inds)` keeps the model's
ascending index order, i.e. the ascending complement of `known` in
`[0, L)`. -/
def unknowns (L : ℕ) (known : List ℕ) : List ℕ :=
  (List.range L).filter (fun i => decide (i ∉ known))

/-- Column `j` of a statically shaped observation, as a list. -/
def colOf {T K : ℕ} (obs : Matrix (Fin T) (Fin K) ℚ) (j : Fin K) : List ℚ :=
  List.ofFn (fun t => obs t j)

/-- `scipy.stats.zscore` along axis 0: subtract the column mean and divide
by the column standard deviation `sqrt(ssdev/T)` (ddof = 0).  A constant
column has zero standard deviation and produces non-finite entries. -/
def zscoreM {T K : ℕ} (sq : ℚ → ℚ) (obs : Matrix (Fin T) (Fin K) ℚ) :
    Matrix (Fin T) (Fin K) RV :=
  fun i j =>
    rdiv (some (obs i j - lmean (colOf obs j)))
      (some (sq (ssdev (colOf obs j) / ((colOf obs j).length : ℚ))))

/-- Product of a rational matrix with a float-like matrix
(`np.dot`, NaN-propagating). -/
def mulQR {a b c : ℕ} (A : Matrix (Fin a) (Fin b) ℚ)
    (B : Matrix (Fin b) (Fin c) RV) : Matrix (Fin a) (Fin c) RV :=
  fun i k => rsum (List.ofFn (fun j => rmul (some (A i j)) (B j k)))

/-- Transpose of a float-like matrix. -/
def transRV {a b : ℕ} (A : Matrix (Fin a) (Fin b) RV) :
    Matrix (Fin b) (Fin a) RV :=
  fun i j => A j i

/-- Row-major list form of a float-like matrix. -/
def toLists {a b : ℕ} (A : Matrix (Fin a) (Fin b) RV) : List (List RV) :=
  List.ofFn (fun i => List.ofFn (fun j => A i j))

/-- Dynamically shaped numpy result: 0-d scalar, 1-d vector or 2-d matrix. -/
inductive NDArray where
  | scalar : RV → NDArray
  | vec : List RV → NDArray
  | mat : List (List RV) → NDArray
deriving DecidableEq

/-- `np.squeeze` of a 2-d array given as its row list together with its
shape `m × n`: axes of length 1 are removed. -/
def squeezeL (m n : ℕ) (rows : List (List RV)) : NDArray :=
  if m = 1 ∧ n = 1 then .scalar ((rows.headD []).headD (some 0))
  else if m = 1 then .vec (rows.headD [])
  else if n = 1 then .vec (rows.map (fun r => r.headD (some 0)))
  else .mat rows

/-- `np.squeeze` of a statically shaped 2-d array. -/
def npSqueeze {m n : ℕ} (A : Matrix (Fin m) (Fin n) RV) : NDArray :=
  squeezeL m n (toLists A)

/-- The numpy shape of a dynamic result. -/
def ndShape : NDArray → List ℕ
  | .scalar _ => []
  | .vec l => [l.length]
  | .mat rows => [rows.length, (rows.headD []).length]

/-- A result with no entries along its last axis (empty unknown set). -/
def noCols : NDArray → Bool
  | .scalar _ => false
  | .vec l => l.isEmpty
  | .mat rows => rows.all List.isEmpty

/-- Every entry of the result is finite. -/
def allFinite : NDArray → Bool
  | .scalar x => x.isSome
  | .vec l => l.all Option.isSome
  | .mat rows => rows.all (fun r => r.all Option.isSome)

/-! ### Moore-Penrose pseudo-inverse

`np.linalg.pinv` computes the Moore-Penrose pseudo-inverse (via SVD).  The
Moore-Penrose pseudo-inverse of a rational matrix is rational, and here it
is computed by Decell's finite algorithm (Faddeev-LeVerrier sequence of
`B = A·Aᵀ`), which is exact over ℚ and total on every matrix, singular
ones included. -/

/-- Faddeev-LeVerrier sequence of a square matrix: `(fadd B k).2` is the
`k`-th coefficient of the characteristic polynomial
`λ^n + c₁λ^(n-1) + ⋯ + c_n` of `B`. -/
def fadd {n : ℕ} (B : Matrix (Fin n) (Fin n) ℚ) :
    ℕ → Matrix (Fin n) (Fin n) ℚ × ℚ
  | 0 => (0, 1)
  | k + 1 =>
    let p := fadd B k
    let A := B * (p.1 + p.2 • (1 : Matrix (Fin n) (Fin n) ℚ))
    (A, -(Matrix.trace A) / (k + 1))

/-- Characteristic-polynomial coefficient `c_k` of `B`. -/
def fc {n : ℕ} (B : Matrix (Fin n) (Fin n) ℚ) (k : ℕ) : ℚ := (fadd B k).2

/-- Largest `k ≥ 1` with `c_k ≠ 0`; for `B = A·Aᵀ` positive semidefinite
this is `rank A` (0 when `A = 0`). -/
def pinvRank {n : ℕ} (B : Matrix (Fin n) (Fin n) ℚ) : ℕ :=
  (((List.range (n + 1)).reverse).find?
    (fun k => decide (k ≠ 0) && decide (fc B k ≠ 0))).getD 0

/-- Moore-Penrose pseudo-inverse by Decell's formula:
`A⁺ = -c_r⁻¹·Aᵀ·(B^(r-1) + c₁B^(r-2) + ⋯ + c_(r-1)·I)` with `B = A·Aᵀ`
and `r = rank A`; `A⁺ = 0` when `A = 0`. -/
def pinv {m n : ℕ} (A : Matrix (Fin m) (Fin n) ℚ) : Matrix (Fin n) (Fin m) ℚ :=
  if pinvRank (A * A.transpose) = 0 then 0
  else (-(fc (A * A.transpose) (pinvRank (A * A.transpose)))⁻¹) •
    (A.transpose * ∑ j ∈ Finset.range (pinvRank (A * A.transpose)),
      fc (A * A.transpose) j •
        (A * A.transpose) ^ (pinvRank (A * A.transpose) - 1 - j))

/-! ### The reconstruction engine (`recon_no_expand`, source lines 205-214) -/

/-- `Kba = model[unknown_inds, :][:, known_inds]` (source line 211). -/
def KbaOf {L : ℕ} (M : Matrix (Fin L) (Fin L) ℚ) (known : List ℕ) :
    Matrix (Fin (unknowns L known).length) (Fin known.length) ℚ :=
  colSel (rowSel M (unknowns L known)) known

/-- `Kaa = model[:, known_inds][known_inds, :]` (source line 212). -/
def KaaOf {L : ℕ} (M : Matrix (Fin L) (Fin L) ℚ) (known : List ℕ) :
    Matrix (Fin known.length) (Fin known.length) ℚ :=
  rowSel (colSel M known) known

/-- `np.dot(np.dot(Kba, np.linalg.pinv(Kaa)), Y.T).T` with
`Y = zscore(bo_sub.get_data())` (source lines 213-214, before the final
`np.squeeze`). -/
def reconEst {L T : ℕ} (sq : ℚ → ℚ) (M : Matrix (Fin L) (Fin L) ℚ)
    (known : List ℕ) (obs : Matrix (Fin T) (Fin known.length) ℚ) :
    Matrix (Fin T) (Fin (unknowns L known).length) RV :=
  transRV (mulQR (KbaOf M known * pinv (KaaOf M known))
    (transRV (zscoreM sq obs)))

/-- The body of `recon_no_expand` applied to a correlation model `M`:
the conditional estimate wrapped in the final `np.squeeze`
(source line 214). -/
def reconFromModel {L T : ℕ} (sq : ℚ → ℚ) (M : Matrix (Fin L) (Fin L) ℚ)
    (known : List ℕ) (obs : Matrix (Fin T) (Fin known.length) ℚ) : NDArray :=
  npSqueeze (reconEst sq M known obs)

/-! ### Model construction from sufficient statistics (source lines 205-206) -/

/-- `np.divide(mo.numerator, mo.denominator)` elementwise, with numpy
division-by-zero producing non-finite values. -/
def matDivQ {L : ℕ} (num den : Matrix (Fin L) (Fin L) ℚ) :
    Matrix (Fin L) (Fin L) RV :=
  fun i j => rdiv (some (num i j)) (some (den i j))

/-- `model[np.eye(model.shape[0]) == 1] = 1`: overwrite the diagonal
with exactly 1. -/
def fixDiag {L : ℕ} (M : Matrix (Fin L) (Fin L) RV) :
    Matrix (Fin L) (Fin L) RV :=
  fun i j => if i = j then some 1 else M i j

/-- `model = z2r(np.divide(mo.numerator, mo.denominator))` followed by the
diagonal overwrite.  The inverse Fisher transform `z2r` (a tanh, hence
irrational) is an abstract parameter lifted over non-finite values. -/
def buildModel {L : ℕ} (z2r : ℚ → ℚ) (num den : Matrix (Fin L) (Fin L) ℚ) :
    Matrix (Fin L) (Fin L) RV :=
  fixDiag (fun i j => Option.map z2r (matDivQ num den i j))

/-! ### Correlation quality metric (`corr`, source lines 217-218) -/

/-- Column count of a numpy 2-d array in row-list form. -/
def npColCount (X : List (List ℚ)) : ℕ := (X.headD []).length

/-- Column `j` of a numpy 2-d array in row-list form. -/
def npCol (X : List (List ℚ)) (j : ℕ) : List ℚ :=
  X.map (fun r => r.getD j 0)

/-- The rows of `X.T`, i.e. the columns of `X`. -/
def npCols (X : List (List ℚ)) : List (List ℚ) :=
  (List.range (npColCount X)).map (npCol X)

/-- `scipy.stats.pearsonr(x, y)[0]`:
`r = Σ xm·ym / sqrt(ss(xm)·ss(ym))` clipped to `[-1, 1]`, where `xm`, `ym`
are the mean-centred inputs; a zero denominator gives NaN. -/
def pearson (sq : ℚ → ℚ) (x y : List ℚ) : RV :=
  rclip (rdiv
    (some ((List.zipWith (fun a b => a * b) (devs x) (devs y)).sum))
    (some (sq (ss (devs x) * ss (devs y)))))

/-- `corr(X, Y) = np.array([pearsonr(x, y)[0] for x, y in zip(X.T, Y.T)])`
(source lines 217-218); `zip` truncates to the shorter column list. -/
def corr (sq : ℚ → ℚ) (X Y : List (List ℚ)) : List RV :=
  List.zipWith (pearson sq) (npCols X) (npCols Y)

/-! ### Engine boundary (spec-modelled) -/

/-- Errors of the reconstruction engine boundary (spec §7). -/
inductive ReconError where
  | DimensionMismatch
  | DegenerateModel
deriving DecidableEq

/-- Modelled from the spec: the engine's boundary validation is not in the
source material (the scripts call library code whose implementation is
absent; `recon_no_expand` is a sketch without checks).  Per spec §4.1/§7/§9
the engine fails fast with `DimensionMismatch` when the observation's
column count differs from `K` or an observed index falls outside `[0, L)`,
and otherwise runs the conditioning of `recon_no_expand`.  With a
rational-valued (hence everywhere finite) model the spec's
`DegenerateModel` condition (an entirely non-finite `K_aa`) cannot arise. -/
def reconstruct (sq : ℚ → ℚ) (modelRows observation : List (List ℚ))
    (observedIndices : List ℕ) : Except ReconError NDArray :=
  if observation.all (fun r => r.length == observedIndices.length)
      && observedIndices.all (fun i => decide (i < modelRows.length)) then
    .ok (reconFromModel sq
      (fun i j => (modelRows.get i).getD j.val 0)
      observedIndices
      (fun t k => (observation.get t).getD k.val 0))
  else
    .error .DimensionMismatch

/-! ### The pseudo-inverse of an identity matrix is the identity

On `B = I` the Faddeev-LeVerrier coefficients are the signed binomial
coefficients of `(λ - 1)^n`, from which Decell's formula collapses to the
identity. -/

/-- Characteristic coefficient of the identity: `c_k = (-1)^k · C(n, k)`. -/
def ccoef (n k : ℕ) : ℚ := (-1) ^ k * (n.choose k : ℚ)

/-- Scalar of the `k`-th Faddeev matrix of the identity:
`A_k = mcoef n k • I`. -/
def mcoef (n : ℕ) : ℕ → ℚ
  | 0 => 0
  | k + 1 => (-1) ^ k * ((n - 1).choose k : ℚ)

theorem mcoef_succ (n k : ℕ) (hk : k + 1 ≤ n) :
    mcoef n (k + 1) = mcoef n k + ccoef n k := by
  cases k with
  | zero => simp [mcoef, ccoef]
  | succ j =>
    obtain ⟨m, rfl⟩ : ∃ m, n = m + 1 := ⟨n - 1, by omega⟩
    have h : (m + 1).choose (j + 1) = m.choose j + m.choose (j + 1) :=
      Nat.choose_succ_succ m j
    simp only [mcoef, ccoef, Nat.add_sub_cancel, h]
    push_cast
    ring

theorem ccoef_succ (n k : ℕ) (hk : k + 1 ≤ n) :
    -(mcoef n (k + 1) * n) / (k + 1) = ccoef n (k + 1) := by
  obtain ⟨m, rfl⟩ : ∃ m, n = m + 1 := ⟨n - 1, by omega⟩
  have h : (m + 1) * m.choose k = (m + 1).choose (k + 1) * (k + 1) :=
    Nat.succ_mul_choose_eq m k
  have hq : ((m : ℚ) + 1) * (m.choose k : ℚ) =
      ((m + 1).choose (k + 1) : ℚ) * ((k : ℚ) + 1) := by exact_mod_cast h
  have hk1 : ((k : ℚ) + 1) ≠ 0 := by positivity
  simp only [mcoef, ccoef, Nat.add_sub_cancel]
  rw [div_eq_iff (by exact_mod_cast hk1)]
  push_cast
  linear_combination ((-1 : ℚ) ^ (k + 1)) * hq

theorem fadd_one_eq (n : ℕ) :
    ∀ k, k ≤ n → fadd (1 : Matrix (Fin n) (Fin n) ℚ) k =
      (mcoef n k • (1 : Matrix (Fin n) (Fin n) ℚ), ccoef n k)
  | 0, _ => by simp [fadd, mcoef, ccoef]
  | k + 1, hk => by
    have ih := fadd_one_eq n k (Nat.le_of_succ_le hk)
    have hA : (1 : Matrix (Fin n) (Fin n) ℚ) *
        (mcoef n k • (1 : Matrix (Fin n) (Fin n) ℚ) +
          ccoef n k • (1 : Matrix (Fin n) (Fin n) ℚ)) =
        mcoef n (k + 1) • (1 : Matrix (Fin n) (Fin n) ℚ) := by
      rw [one_mul, ← add_smul, mcoef_succ n k hk]
    have htr : Matrix.trace
        (mcoef n (k + 1) • (1 : Matrix (Fin n) (Fin n) ℚ)) =
        mcoef n (k + 1) * n := by
      rw [Matrix.trace_smul, Matrix.trace_one, smul_eq_mul, Fintype.card_fin]
    simp only [fadd, ih, hA, htr]
    exact Prod.ext rfl (ccoef_succ n k hk)

theorem fc_one (n k : ℕ) (hk : k ≤ n) :
    fc (1 : Matrix (Fin n) (Fin n) ℚ) k = ccoef n k := by
  rw [fc, fadd_one_eq n k hk]

theorem ccoef_self_ne (n : ℕ) : ccoef n n ≠ 0 := by
  simp [ccoef]

theorem pinvRank_one (n : ℕ) (hn : 0 < n) :
    pinvRank (1 : Matrix (Fin n) (Fin n) ℚ) = n := by
  unfold pinvRank
  rw [List.range_succ, List.reverse_append, List.reverse_singleton,
    List.singleton_append]
  have hp : ((fun k => decide (k ≠ 0) && decide
      (fc (1 : Matrix (Fin n) (Fin n) ℚ) k ≠ 0)) n) = true := by
    show (decide (n ≠ 0) && decide
      (fc (1 : Matrix (Fin n) (Fin n) ℚ) n ≠ 0)) = true
    rw [fc_one n n le_rfl]
    simp [hn.ne', ccoef_self_ne n]
  rw [List.find?_cons_of_pos (p := fun k => decide (k ≠ 0) && decide
    (fc (1 : Matrix (Fin n) (Fin n) ℚ) k ≠ 0)) _ hp]
  rfl

theorem ccoef_sum (n : ℕ) (hn : 0 < n) :
    ∑ j ∈ Finset.range n, ccoef n j = -ccoef n n := by
  have h := Int.alternating_sum_range_choose (n := n)
  rw [if_neg hn.ne'] at h
  have h2 : (∑ m ∈ Finset.range (n + 1),
      ((-1 : ℚ) ^ m * (n.choose m : ℚ))) = 0 := by
    exact_mod_cast congrArg (fun z : ℤ => (z : ℚ)) h
  rw [Finset.sum_range_succ] at h2
  have h3 : ∑ j ∈ Finset.range n, ccoef n j =
      ∑ m ∈ Finset.range n, ((-1 : ℚ) ^ m * (n.choose m : ℚ)) := rfl
  rw [h3]
  unfold ccoef
  linarith

theorem pinv_one (n : ℕ) : pinv (1 : Matrix (Fin n) (Fin n) ℚ) = 1 := by
  rcases Nat.eq_zero_or_pos n with h0 | hn
  · subst h0
    apply Subsingleton.elim
  · unfold pinv
    rw [Matrix.transpose_one, mul_one, pinvRank_one n hn, if_neg hn.ne']
    have hsum : ∑ j ∈ Finset.range n,
        fc (1 : Matrix (Fin n) (Fin n) ℚ) j •
          (1 : Matrix (Fin n) (Fin n) ℚ) ^ (n - 1 - j) =
        (∑ j ∈ Finset.range n, ccoef n j) •
          (1 : Matrix (Fin n) (Fin n) ℚ) := by
      rw [Finset.sum_smul]
      refine Finset.sum_congr rfl ?_
      intro j hj
      rw [one_pow, fc_one n j (Finset.mem_range.mp hj).le]
    rw [hsum, ccoef_sum n hn, one_mul, fc_one n n le_rfl, smul_smul]
    have hs : -(ccoef n n)⁻¹ * -ccoef n n = 1 := by
      have hne := ccoef_self_ne n
      field_simp
    rw [hs, one_smul]

/-! ### Helper lemmas: index bookkeeping -/

theorem mem_unknowns_lt (L : ℕ) (known : List ℕ) :
    ∀ i ∈ unknowns L known, i < L := by
  intro i hi
  have := List.mem_filter.mp hi
  exact List.mem_range.mp this.1

theorem unknowns_sorted (L : ℕ) (known : List ℕ) :
    List.Sorted (· < ·) (unknowns L known) :=
  List.Pairwise.sublist (List.filter_sublist _) (List.pairwise_lt_range L)

theorem filter_length_split (l : List ℕ) (p : ℕ → Bool) :
    (l.filter p).length + (l.filter (fun a => !(p a))).length = l.length := by
  induction l with
  | nil => simp
  | cons a t ih =>
    by_cases h : p a = true <;> simp [h, Nat.add_right_comm, ih] <;> omega

theorem unknowns_length (L : ℕ) (known : List ℕ)
    (hval : ∀ i ∈ known, i < L) (hnd : known.Nodup) :
    (unknowns L known).length = L - known.length := by
  have hperm : List.Perm ((List.range L).filter
      (fun i => decide (i ∈ known))) known := by
    refine (List.perm_ext_iff_of_nodup ((List.nodup_range L).filter _) hnd).mpr ?_
    intro a
    simp only [List.mem_filter, List.mem_range, decide_eq_true_eq]
    exact ⟨fun h => h.2, fun h => ⟨hval a h, h⟩⟩
  have hsplit := filter_length_split (List.range L) (fun i => decide (i ∈ known))
  have hneg : (List.range L).filter
      (fun a => !(decide (a ∈ known))) = unknowns L known := by
    unfold unknowns
    refine List.filter_congr ?_
    intro a _
    simp
  rw [hneg] at hsplit
  rw [hperm.length_eq] at hsplit
  rw [List.length_range] at hsplit
  omega

theorem unknowns_nil (L : ℕ) (known : List ℕ)
    (hcov : ∀ i, i < L → i ∈ known) : unknowns L known = [] := by
  unfold unknowns
  rw [List.filter_eq_nil_iff]
  intro a ha
  simp only [decide_eq_true_eq, Decidable.not_not]
  exact hcov a (List.mem_range.mp ha)

/-! ### Helper lemmas: double fancy indexing equals the spec's submatrix -/

theorem colSel_rowSel_eq {L : ℕ} (M : Matrix (Fin L) (Fin L) ℚ)
    (rows cols : List ℕ) (hc : ∀ j ∈ cols, j < L) :
    colSel (rowSel M rows) cols = subM M rows cols := by
  funext i j
  have hj : cols.get j < L := hc _ (List.get_mem cols j.val j.isLt)
  show entryN (rowSel M rows) i.val (cols.get j) = entryN M (rows.get i) (cols.get j)
  unfold entryN
  rw [dif_pos ⟨i.isLt, hj⟩]
  show entryN M (rows.get ⟨i.val, i.isLt⟩) (cols.get j) = _
  congr 1

theorem rowSel_colSel_eq {L : ℕ} (M : Matrix (Fin L) (Fin L) ℚ)
    (rows cols : List ℕ) (hr : ∀ i ∈ rows, i < L) :
    rowSel (colSel M cols) rows = subM M rows cols := by
  funext i j
  have hi : rows.get i < L := hr _ (List.get_mem rows i.val i.isLt)
  show entryN (colSel M cols) (rows.get i) j.val = entryN M (rows.get i) (cols.get j)
  unfold entryN
  rw [dif_pos ⟨hi, j.isLt⟩]
  show entryN M (rows.get i) (cols.get ⟨j.val, j.isLt⟩) = _
  congr 1

theorem KbaOf_eq {L : ℕ} (M : Matrix (Fin L) (Fin L) ℚ) (known : List ℕ)
    (hval : ∀ i ∈ known, i < L) :
    KbaOf M known = subM M (unknowns L known) known :=
  colSel_rowSel_eq M (unknowns L known) known hval

theorem KaaOf_eq {L : ℕ} (M : Matrix (Fin L) (Fin L) ℚ) (known : List ℕ)
    (hval : ∀ i ∈ known, i < L) :
    KaaOf M known = subM M known known :=
  rowSel_colSel_eq M known known hval

/-! ### Helper lemmas: squeeze and shapes -/

theorem npSqueeze_mat {m n : ℕ} (A : Matrix (Fin m) (Fin n) RV)
    (hm : m ≠ 1) (hn2 : n ≠ 1) : npSqueeze A = .mat (toLists A) := by
  unfold npSqueeze squeezeL
  simp [hm, hn2]

theorem ndShape_mat_toLists {m n : ℕ} (A : Matrix (Fin m) (Fin n) RV)
    (hm : 0 < m) : ndShape (.mat (toLists A)) = [m, n] := by
  obtain ⟨t, rfl⟩ : ∃ t, m = t + 1 := ⟨m - 1, by omega⟩
  simp [ndShape, toLists, List.ofFn_succ]

/-! ### Helper lemmas: finiteness -/

theorem sum_nonneg_list (l : List ℚ) (h : ∀ x ∈ l, 0 ≤ x) : 0 ≤ l.sum := by
  induction l with
  | nil => simp
  | cons a t ih =>
    rw [List.sum_cons]
    have := h a (List.mem_cons_self a t)
    have ht := ih (fun x hx => h x (List.mem_cons_of_mem a hx))
    linarith

theorem le_sum_of_mem_of_nonneg (l : List ℚ) (h0 : ∀ x ∈ l, 0 ≤ x)
    (x : ℚ) (hx : x ∈ l) : x ≤ l.sum := by
  induction l with
  | nil => simp at hx
  | cons a t ih =>
    rw [List.sum_cons]
    rcases List.mem_cons.mp hx with rfl | hxt
    · have := sum_nonneg_list t (fun y hy => h0 y (List.mem_cons_of_mem x hy))
      linarith
    · have := h0 a (List.mem_cons_self a t)
      have := ih (fun y hy => h0 y (List.mem_cons_of_mem a hy)) hxt
      linarith

theorem ss_nonneg (xs : List ℚ) : 0 ≤ ss xs := by
  refine sum_nonneg_list _ ?_
  intro x hx
  obtain ⟨v, _, rfl⟩ := List.mem_map.mp hx
  exact mul_self_nonneg v

theorem ssdev_nonneg (xs : List ℚ) : 0 ≤ ssdev xs := ss_nonneg (devs xs)

theorem ssdev_pos (xs : List ℚ) (a b : ℚ) (ha : a ∈ xs) (hb : b ∈ xs)
    (hab : a ≠ b) : 0 < ssdev xs := by
  have key : ∀ x ∈ xs, x ≠ lmean xs → 0 < ssdev xs := by
    intro x hx hne
    have hmem : (x - lmean xs) * (x - lmean xs) ∈
        (devs xs).map (fun v => v * v) := by
      refine List.mem_map.mpr ⟨x - lmean xs, ?_, rfl⟩
      exact List.mem_map.mpr ⟨x, hx, rfl⟩
    have hle := le_sum_of_mem_of_nonneg ((devs xs).map (fun v => v * v))
      (fun y hy => by
        obtain ⟨v, _, rfl⟩ := List.mem_map.mp hy
        exact mul_self_nonneg v) _ hmem
    have hpos : 0 < (x - lmean xs) * (x - lmean xs) := by
      have : x - lmean xs ≠ 0 := sub_ne_zero_of_ne hne
      exact mul_self_pos.mpr this
    calc (0 : ℚ) < (x - lmean xs) * (x - lmean xs) := hpos
      _ ≤ ssdev xs := hle
  by_cases hav : a = lmean xs
  · exact key b hb (fun h => hab (hav.trans h.symm))
  · exact key a ha hav

theorem rsum_isSome (l : List RV) (h : ∀ x ∈ l, x.isSome = true) :
    (rsum l).isSome = true := by
  induction l with
  | nil => rfl
  | cons a t ih =>
    obtain ⟨q, hq⟩ := Option.isSome_iff_exists.mp (h a (List.mem_cons_self a t))
    obtain ⟨s, hs⟩ := Option.isSome_iff_exists.mp
      (ih (fun x hx => h x (List.mem_cons_of_mem a hx)))
    show (radd a (rsum t)).isSome = true
    rw [hq, hs]
    rfl

theorem zscoreM_isSome {T K : ℕ} (sq : ℚ → ℚ) (hsq : SqrtOK sq)
    (obs : Matrix (Fin T) (Fin K) ℚ) (j : Fin K)
    (hnc : ∃ t t' : Fin T, obs t j ≠ obs t' j) :
    ∀ i, (zscoreM sq obs i j).isSome = true := by
  intro i
  obtain ⟨t, t', hne⟩ := hnc
  have hT : 0 < T := Fin.pos t
  have hlen : (colOf obs j).length = T := by
    unfold colOf
    exact List.length_ofFn _
  have hmem : obs t j ∈ colOf obs j := by
    unfold colOf
    exact (List.mem_ofFn _ _).mpr ⟨t, rfl⟩
  have hmem2 : obs t' j ∈ colOf obs j := by
    unfold colOf
    exact (List.mem_ofFn _ _).mpr ⟨t', rfl⟩
  have hpos : 0 < ssdev (colOf obs j) :=
    ssdev_pos _ _ _ hmem hmem2 hne
  have hdivpos : 0 < ssdev (colOf obs j) / ((colOf obs j).length : ℚ) := by
    apply div_pos hpos
    rw [hlen]
    exact_mod_cast hT
  have hsig : 0 < sq (ssdev (colOf obs j) / ((colOf obs j).length : ℚ)) :=
    hsq.2.1 _ hdivpos
  show (rdiv (some (obs i j - lmean (colOf obs j)))
    (some (sq (ssdev (colOf obs j) / ((colOf obs j).length : ℚ))))).isSome = true
  simp only [rdiv]
  rw [if_neg hsig.ne']
  rfl

theorem headD_isSome (l : List RV) (h : ∀ x ∈ l, x.isSome = true) :
    (l.headD (some 0)).isSome = true := by
  cases l with
  | nil => rfl
  | cons a t => exact h a (List.mem_cons_self a t)

theorem toLists_rows_isSome {m n : ℕ} (A : Matrix (Fin m) (Fin n) RV)
    (h : ∀ i j, (A i j).isSome = true) :
    ∀ r ∈ toLists A, ∀ x ∈ r, x.isSome = true := by
  intro r hr x hx
  obtain ⟨i, rfl⟩ := (List.mem_ofFn _ _).mp hr
  obtain ⟨j, rfl⟩ := (List.mem_ofFn _ _).mp hx
  exact h i j

theorem headD_rows_isSome (rows : List (List RV))
    (h : ∀ r ∈ rows, ∀ x ∈ r, x.isSome = true) :
    ∀ x ∈ rows.headD [], x.isSome = true := by
  cases rows with
  | nil => intro x hx; simp at hx
  | cons r t => exact h r (List.mem_cons_self r t)

theorem allFinite_npSqueeze {m n : ℕ} (A : Matrix (Fin m) (Fin n) RV)
    (h : ∀ i j, (A i j).isSome = true) : allFinite (npSqueeze A) = true := by
  have hrows := toLists_rows_isSome A h
  unfold npSqueeze squeezeL
  split_ifs
  · exact headD_isSome _ (headD_rows_isSome _ hrows)
  · exact List.all_eq_true.mpr (headD_rows_isSome _ hrows)
  · refine List.all_eq_true.mpr ?_
    intro x hx
    obtain ⟨r, hr, rfl⟩ := List.mem_map.mp hx
    exact headD_isSome r (hrows r hr)
  · refine List.all_eq_true.mpr ?_
    intro r hr
    exact List.all_eq_true.mpr (hrows r hr)

theorem reconEst_isSome {L T : ℕ} (sq : ℚ → ℚ) (hsq : SqrtOK sq)
    (M : Matrix (Fin L) (Fin L) ℚ) (known : List ℕ)
    (obs : Matrix (Fin T) (Fin known.length) ℚ)
    (hnc : ∀ j : Fin known.length, ∃ t t' : Fin T, obs t j ≠ obs t' j) :
    ∀ i u, ((reconEst sq M known obs) i u).isSome = true := by
  intro i u
  show (rsum (List.ofFn (fun j =>
    rmul (some ((KbaOf M known * pinv (KaaOf M known)) u j))
      (zscoreM sq obs i j)))).isSome = true
  apply rsum_isSome
  intro x hx
  obtain ⟨j, rfl⟩ := (List.mem_ofFn _ _).mp hx
  obtain ⟨q, hq⟩ := Option.isSome_iff_exists.mp
    (zscoreM_isSome sq hsq obs j (hnc j) i)
  show (rmul (some ((KbaOf M known * pinv (KaaOf M known)) u j))
    (zscoreM sq obs i j)).isSome = true
  rw [hq]
  rfl

theorem nil_headD_nil (m : ℕ) :
    ((List.ofFn (fun _ : Fin m => ([] : List RV))).headD []) = [] := by
  cases m with
  | zero => rfl
  | succ t => rw [List.ofFn_succ, List.headD_cons]

theorem noCols_npSqueeze_of_zero {m : ℕ} (A : Matrix (Fin m) (Fin 0) RV) :
    noCols (npSqueeze A) = true := by
  have ht : toLists A = List.ofFn (fun _ : Fin m => ([] : List RV)) := by
    unfold toLists
    congr 1
  unfold npSqueeze squeezeL
  rw [ht]
  by_cases hm : m = 1
  · rw [if_neg (by omega : ¬(m = 1 ∧ (0 : ℕ) = 1)), if_pos hm, nil_headD_nil]
    rfl
  · rw [if_neg (by omega : ¬(m = 1 ∧ (0 : ℕ) = 1)), if_neg hm,
      if_neg (by omega : ¬(0 : ℕ) = 1)]
    refine List.all_eq_true.mpr ?_
    intro r hr
    obtain ⟨i, rfl⟩ := (List.mem_ofFn _ _).mp hr
    rfl

theorem noCols_npSqueeze_zero {m n : ℕ} (A : Matrix (Fin m) (Fin n) RV)
    (hn : n = 0) : noCols (npSqueeze A) = true := by
  subst hn
  exact noCols_npSqueeze_of_zero A

theorem zipWith_self {α β : Type} (f : α → α → β) (l : List α) :
    List.zipWith f l l = l.map (fun a => f a a) := by
  induction l with
  | nil => rfl
  | cons a t ih => simp [ih]

theorem pearson_self (sq : ℚ → ℚ) (hsq : SqrtOK sq) (x : List ℚ)
    (a b : ℚ) (ha : a ∈ x) (hb : b ∈ x) (hab : a ≠ b) :
    pearson sq x x = some 1 := by
  unfold pearson
  rw [zipWith_self]
  have hs : 0 < ssdev x := ssdev_pos x a b ha hb hab
  have hden : sq (ssdev x * ssdev x) = ssdev x := hsq.2.2 _ hs.le
  show rclip (rdiv (some (ss (devs x)))
    (some (sq (ss (devs x) * ss (devs x))))) = some 1
  have hssd : ss (devs x) = ssdev x := rfl
  rw [hssd, hden]
  simp only [rdiv]
  rw [if_neg hs.ne', div_self hs.ne']
  unfold rclip
  norm_num

theorem npColCount_eq (X : List (List ℚ)) (c : ℕ) (hne : X ≠ [])
    (hrect : ∀ r ∈ X, r.length = c) : npColCount X = c := by
  cases X with
  | nil => exact absurd rfl hne
  | cons r t =>
    show r.length = c
    exact hrect r (List.mem_cons_self r t)

/-! ### Concrete inputs used by witnesses and counterexamples -/

/-- Correlation model with unit diagonal and off-diagonal 1/2 on 3 locations. -/
def mC1 : Matrix (Fin 3) (Fin 3) ℚ := fun i j => if i = j then 1 else 1/2

/-- A 2x1 observation with a non-constant column. -/
def oC1w : Matrix (Fin 2) (Fin (List.length ([0] : List ℕ))) ℚ :=
  fun i _ => if i.val = 0 then 0 else 2

/-- A 1x1 observation (one time sample), exercising the squeeze. -/
def oC1x : Matrix (Fin 1) (Fin (List.length ([0] : List ℕ))) ℚ := fun _ _ => 5

/-- A 2x2 observation of zeros for the shape witness. -/
def oC2w : Matrix (Fin 2) (Fin (List.length ([0, 1] : List ℕ))) ℚ := fun _ _ => 0

/-- A 3x3 observation of zeros, for the shape counterexample (L-K = 1). -/
def oC2x : Matrix (Fin 3) (Fin (List.length ([0, 1, 2] : List ℕ))) ℚ := fun _ _ => 0

/-- All-ones sufficient-statistics numerator. -/
def numC3 : Matrix (Fin 2) (Fin 2) ℚ := fun _ _ => 3

/-- All-zero denominator (division by zero on every entry). -/
def denC3 : Matrix (Fin 2) (Fin 2) ℚ := fun _ _ => 0

/-- A 5x5 all-ones correlation model in row-list form. -/
def modelRowsC4 : List (List ℚ) := List.replicate 5 (List.replicate 5 1)

/-- All-ones model: the observed-observed block of any two locations is the
singular matrix of ones (two perfectly correlated locations). -/
def mC5 : Matrix (Fin 3) (Fin 3) ℚ := fun _ _ => 1

/-- Observation with non-constant columns [0,1] and [0,2]. -/
def oC5 : Matrix (Fin 2) (Fin (List.length ([0, 1] : List ℕ))) ℚ :=
  fun i j => if i.val = 0 then 0 else (j.val : ℚ) + 1

/-- Constant observation at full coverage. -/
def oC6 : Matrix (Fin 2) (Fin (List.length ([0, 1] : List ℕ))) ℚ := fun _ _ => 3

/-- The spec scenario's model: 5x5, unit diagonal, off-diagonal 0.5. -/
def mC7 : Matrix (Fin 5) (Fin 5) ℚ := fun i j => if i = j then 1 else 1/2

/-- The spec scenario's observation: 10x2, all zeros. -/
def oC7 : Matrix (Fin 10) (Fin (List.length ([0, 1] : List ℕ))) ℚ := fun _ _ => 0

/-- A 2x2 matrix in row-list form with two non-constant columns. -/
def xC8 : List (List ℚ) := [[1, 0], [3, 7]]

/-- A 2x2 observation for the identity-block witness. -/
def oC9 : Matrix (Fin 2) (Fin (List.length ([0, 2] : List ℕ))) ℚ := fun _ _ => 1

/-- A 2x2 matrix in row-list form (two columns). -/
def xC10 : List (List ℚ) := [[1, 2], [3, 4]]

/-- A 2x1 matrix in row-list form (one column). -/
def yC10 : List (List ℚ) := [[5], [6]]

/-! ### Claims -/

/-- C1 (amended): for every correlation model `M` (L x L, unit diagonal),
distinct in-range observed indices with `K < L`, and `T x K` observation,
`recon_no_expand` returns `np.squeeze` of the matrix
`K_ba · pinv(K_aa) · Yᵀ` transposed back to `T x (L-K)`, where
`K_ba = M[U, observed]`, `K_aa = M[observed, observed]` and `Y` is the
columnwise-standardised observation; the result equals that matrix itself
whenever `T ≠ 1` and `L-K ≠ 1` (otherwise the final `np.squeeze` collapses
the singleton axis, refuting the claim as originally stated). -/
theorem c1_recon_formula {L T : ℕ} (sq : ℚ → ℚ) (M : Matrix (Fin L) (Fin L) ℚ)
    (known : List ℕ) (obs : Matrix (Fin T) (Fin known.length) ℚ)
    (hval : ∀ i ∈ known, i < L) (hnd : known.Nodup)
    (hdiag : ∀ i, M i i = 1) (hK : known.length < L)
    (hT : T ≠ 1) (hU : L - known.length ≠ 1) :
    reconFromModel sq M known obs =
      NDArray.mat (toLists (transRV (mulQR
        (subM M (unknowns L known) known * pinv (subM M known known))
        (transRV (zscoreM sq obs))))) := by
  have hlen := unknowns_length L known hval hnd
  unfold reconFromModel
  rw [npSqueeze_mat _ hT (by rw [hlen]; exact hU)]
  unfold reconEst
  rw [KbaOf_eq M known hval, KaaOf_eq M known hval]

/-- Witness for C1 at `L = 3`, `T = 2`, observed index 0. -/
theorem c1_recon_formula_witness :
    (∀ i ∈ ([0] : List ℕ), i < 3) ∧ ([0] : List ℕ).Nodup ∧
    (∀ i : Fin 3, mC1 i i = 1) ∧ ([0] : List ℕ).length < 3 ∧
    (2 : ℕ) ≠ 1 ∧ 3 - ([0] : List ℕ).length ≠ 1 ∧
    reconFromModel Rat.sqrt mC1 [0] oC1w =
      NDArray.mat (toLists (transRV (mulQR
        (subM mC1 (unknowns 3 [0]) [0] * pinv (subM mC1 [0] [0]))
        (transRV (zscoreM Rat.sqrt oC1w))))) :=
  ⟨by decide, by decide, by with_unfolding_all decide, by decide, by decide,
    by decide,
    c1_recon_formula Rat.sqrt mC1 [0] oC1w (by decide) (by decide)
      (by with_unfolding_all decide) (by decide) (by decide) (by decide)⟩

/-- Counterexample to C1 as stated: at `T = 1` (here `L = 3`, `K = 1`,
observation `[[5]]`) the final `np.squeeze` collapses the time axis, so the
returned value is a 1-d vector, not the claimed `T x (L-K)` matrix. -/
theorem c1_squeeze_cex :
    reconFromModel Rat.sqrt mC1 [0] oC1x ≠
      NDArray.mat (toLists (transRV (mulQR
        (subM mC1 (unknowns 3 [0]) [0] * pinv (subM mC1 [0] [0]))
        (transRV (zscoreM Rat.sqrt oC1x))))) := by
  with_unfolding_all decide

/-- C2 (amended): for valid inputs with `2 ≤ T` and `2 ≤ L-K` (so that
`np.squeeze` is the identity), the result is 2-d with exactly `T` rows and
`L-K` columns, and the unobserved indices are strictly ascending (the
column order of the result). -/
theorem c2_output_shape {L T : ℕ} (sq : ℚ → ℚ) (M : Matrix (Fin L) (Fin L) ℚ)
    (known : List ℕ) (obs : Matrix (Fin T) (Fin known.length) ℚ)
    (hval : ∀ i ∈ known, i < L) (hnd : known.Nodup)
    (hdiag : ∀ i, M i i = 1) (hK : known.length < L)
    (hT : 2 ≤ T) (hU : 2 ≤ L - known.length) :
    reconFromModel sq M known obs =
      NDArray.mat (toLists (reconEst sq M known obs)) ∧
    ndShape (reconFromModel sq M known obs) = [T, L - known.length] ∧
    List.Sorted (· < ·) (unknowns L known) := by
  have hlen := unknowns_length L known hval hnd
  have h1 : reconFromModel sq M known obs =
      NDArray.mat (toLists (reconEst sq M known obs)) :=
    npSqueeze_mat _ (by omega) (by rw [hlen]; omega)
  refine ⟨h1, ?_, unknowns_sorted L known⟩
  rw [h1, ndShape_mat_toLists _ (by omega : 0 < T), hlen]

/-- Witness for C2 at `L = 4`, `T = 2`, observed indices `[0, 1]`. -/
theorem c2_output_shape_witness :
    (∀ i ∈ ([0, 1] : List ℕ), i < 4) ∧ ([0, 1] : List ℕ).Nodup ∧
    (∀ i : Fin 4, (1 : Matrix (Fin 4) (Fin 4) ℚ) i i = 1) ∧
    ([0, 1] : List ℕ).length < 4 ∧
    (reconFromModel Rat.sqrt (1 : Matrix (Fin 4) (Fin 4) ℚ) [0, 1] oC2w =
        NDArray.mat (toLists (reconEst Rat.sqrt
          (1 : Matrix (Fin 4) (Fin 4) ℚ) [0, 1] oC2w)) ∧
      ndShape (reconFromModel Rat.sqrt
        (1 : Matrix (Fin 4) (Fin 4) ℚ) [0, 1] oC2w) = [2, 4 - ([0, 1] : List ℕ).length] ∧
      List.Sorted (· < ·) (unknowns 4 [0, 1])) :=
  ⟨by decide, by decide, by with_unfolding_all decide, by decide,
    c2_output_shape Rat.sqrt (1 : Matrix (Fin 4) (Fin 4) ℚ) [0, 1] oC2w
      (by decide) (by decide) (by with_unfolding_all decide) (by decide)
      (by decide) (by decide)⟩

/-- Counterexample to C2 as stated: with `L = 4`, `K = 3` (so `L-K = 1`)
the final `np.squeeze` collapses the column axis and the result is 1-d of
shape `[T]`, not `T` rows by `L-K = 1` column. -/
theorem c2_shape_cex :
    ndShape (reconFromModel Rat.sqrt
      (1 : Matrix (Fin 4) (Fin 4) ℚ) [0, 1, 2] oC2x) ≠ [3, 1] := by
  with_unfolding_all decide

/-- C3: when the model arrives in sufficient-statistics form,
`recon_no_expand` forms the correlation matrix as `z2r` of
`numerator/denominator` elementwise and then overwrites every diagonal
entry with exactly 1; afterwards the diagonal is exactly 1 at every index
(for any inverse Fisher transform `z2r` and any statistics, a zero
denominator included). -/
theorem c3_unit_diagonal {L : ℕ} (z2r : ℚ → ℚ)
    (num den : Matrix (Fin L) (Fin L) ℚ) :
    (∀ i : Fin L, buildModel z2r num den i i = some 1) ∧
    (∀ i j : Fin L, i ≠ j → buildModel z2r num den i j =
      Option.map z2r (rdiv (some (num i j)) (some (den i j)))) := by
  constructor
  · intro i
    unfold buildModel fixDiag
    rw [if_pos rfl]
  · intro i j hij
    unfold buildModel fixDiag
    rw [if_neg hij]
    rfl

/-- Witness for C3 on 2x2 statistics with an all-zero denominator. -/
theorem c3_unit_diagonal_witness :
    buildModel (fun z => z) numC3 denC3 0 0 = some 1 :=
  (c3_unit_diagonal (fun z => z) numC3 denC3).1 0

/-- C4 (spec-modelled): `reconstruct` fails with `DimensionMismatch` if and
only if the observation's column count differs from `K` or some observed
index lies outside `[0, L)`.  (`T ≥ 1` so that the column count of the
row-list observation is well defined.) -/
theorem c4_dimension_mismatch (sq : ℚ → ℚ)
    (modelRows observation : List (List ℚ)) (inds : List ℕ) (T C : ℕ)
    (hT : observation.length = T) (hpos : 0 < T)
    (hrect : ∀ r ∈ observation, r.length = C) :
    (reconstruct sq modelRows observation inds =
        .error .DimensionMismatch) ↔
      (C ≠ inds.length ∨ ∃ i ∈ inds, modelRows.length ≤ i) := by
  unfold reconstruct
  split_ifs with h
  · rw [Bool.and_eq_true] at h
    obtain ⟨hall, hidx⟩ := h
    obtain ⟨r0, hr0⟩ : ∃ r, r ∈ observation := by
      cases observation with
      | nil => simp at hT; omega
      | cons a t => exact ⟨a, List.mem_cons_self a t⟩
    have hC : C = inds.length := by
      have h1 := List.all_eq_true.mp hall r0 hr0
      have h2 := hrect r0 hr0
      rw [beq_iff_eq] at h1
      omega
    have hIdx : ∀ i ∈ inds, i < modelRows.length := by
      intro i hi
      have := List.all_eq_true.mp hidx i hi
      exact of_decide_eq_true this
    constructor
    · intro habs
      simp at habs
    · rintro (hc | ⟨i, hi, hge⟩)
      · exact absurd hC hc
      · exact absurd (hIdx i hi) (by omega)
  · constructor
    · intro _
      rw [Bool.and_eq_true, not_and_or] at h
      rcases h with h | h
      · left
        rw [List.all_eq_true] at h
        push_neg at h
        obtain ⟨r, hr, hrne⟩ := h
        have h2 := hrect r hr
        intro hceq
        apply hrne
        rw [beq_iff_eq]
        omega
      · right
        rw [List.all_eq_true] at h
        push_neg at h
        obtain ⟨i, hi, hlt⟩ := h
        refine ⟨i, hi, ?_⟩
        have hnotlt : ¬ i < modelRows.length :=
          fun hh => hlt (decide_eq_true hh)
        omega
    · intro _
      rfl

/-- Witness for C4: `L = 5` and an observed index 7 out of range. -/
theorem c4_dimension_mismatch_witness :
    (([[(0 : ℚ), 0]] : List (List ℚ)).length = 1 ∧ (0 : ℕ) < 1 ∧
      (∀ r ∈ ([[(0 : ℚ), 0]] : List (List ℚ)), r.length = 2)) ∧
    reconstruct Rat.sqrt modelRowsC4 [[0, 0]] [0, 7] =
      .error .DimensionMismatch :=
  ⟨⟨rfl, by decide, by decide⟩,
    (c4_dimension_mismatch Rat.sqrt modelRowsC4 [[0, 0]] [0, 7] 1 2 rfl
      (by decide) (by decide)).mpr (Or.inr ⟨7, by decide, by decide⟩)⟩

/-- C5: on every valid input whose observed-observed block `K_aa` is
rank-deficient (singular), the reconstruction is total (the pseudo-inverse
is defined on singular matrices) and every entry of the result is finite;
the observation's columns are non-constant, as standardised activity is. -/
theorem c5_rank_deficient_finite {L T : ℕ} (sq : ℚ → ℚ) (hsq : SqrtOK sq)
    (M : Matrix (Fin L) (Fin L) ℚ) (known : List ℕ)
    (obs : Matrix (Fin T) (Fin known.length) ℚ)
    (hval : ∀ i ∈ known, i < L) (hnd : known.Nodup)
    (hdiag : ∀ i, M i i = 1) (hK : known.length < L)
    (hsing : (KaaOf M known).det = 0)
    (hnc : ∀ j : Fin known.length, ∃ t t' : Fin T, obs t j ≠ obs t' j) :
    allFinite (reconFromModel sq M known obs) = true := by
  unfold reconFromModel
  exact allFinite_npSqueeze _ (reconEst_isSome sq hsq M known obs hnc)

/-- Witness for C5: all-ones model, `K_aa = [[1,1],[1,1]]` singular. -/
theorem c5_rank_deficient_finite_witness :
    SqrtOK Rat.sqrt ∧ (KaaOf mC5 [0, 1]).det = 0 ∧
    allFinite (reconFromModel Rat.sqrt mC5 [0, 1] oC5) = true :=
  ⟨ratSqrt_ok,
    by rw [Matrix.det_fin_two]; with_unfolding_all decide,
    c5_rank_deficient_finite Rat.sqrt ratSqrt_ok mC5 [0, 1] oC5
      (by decide) (by decide) (by with_unfolding_all decide) (by decide)
      (by rw [Matrix.det_fin_two]; with_unfolding_all decide)
      (by with_unfolding_all decide)⟩

/-- C6: when the observed indices cover all `L` locations (`K = L`), the
unknown set is empty and `recon_no_expand` returns an empty result (zero
unknown columns) rather than failing. -/
theorem c6_full_coverage_empty {L T : ℕ} (sq : ℚ → ℚ)
    (M : Matrix (Fin L) (Fin L) ℚ) (known : List ℕ)
    (obs : Matrix (Fin T) (Fin known.length) ℚ)
    (hdiag : ∀ i : Fin L, M i i = 1)
    (hcov : ∀ i, i < L → i ∈ known) :
    unknowns L known = [] ∧
    noCols (reconFromModel sq M known obs) = true := by
  refine ⟨unknowns_nil L known hcov, ?_⟩
  unfold reconFromModel
  exact noCols_npSqueeze_zero _ (by rw [unknowns_nil L known hcov]; rfl)

/-- Witness for C6 at `L = K = 2`. -/
theorem c6_full_coverage_empty_witness :
    (∀ i, i < 2 → i ∈ ([0, 1] : List ℕ)) ∧
    (unknowns 2 [0, 1] = [] ∧
      noCols (reconFromModel Rat.sqrt
        (1 : Matrix (Fin 2) (Fin 2) ℚ) [0, 1] oC6) = true) :=
  ⟨by decide,
    c6_full_coverage_empty Rat.sqrt (1 : Matrix (Fin 2) (Fin 2) ℚ) [0, 1]
      oC6 (by with_unfolding_all decide) (by decide)⟩

/-- C7 (amended): on the spec's scenario (`L = 5`, observed `[0, 1]`,
unit-diagonal model with off-diagonal 0.5, 10x2 observation of zeros) the
reconstruction is NaN (non-finite) at all 3 unknown locations, because the
columnwise standardisation of an all-zero observation divides by the zero
standard deviation (numpy 0/0 = nan); it is not zeros. -/
theorem c7_zero_obs_nan :
    reconFromModel Rat.sqrt mC7 [0, 1] oC7 =
      NDArray.mat (List.replicate 10 (List.replicate 3 (none : RV))) := by
  with_unfolding_all decide

/-- Counterexample to C7 as stated: the result at the scenario input is not
the all-zero 10x3 matrix. -/
theorem c7_zero_obs_cex :
    reconFromModel Rat.sqrt mC7 [0, 1] oC7 ≠
      NDArray.mat (List.replicate 10 (List.replicate 3 (some (0 : ℚ) : RV))) := by
  with_unfolding_all decide

/-- C8 (amended): for `X = Y` (rectangular, `T ≥ 1` rows, `c` columns) the
correlation metric returns one coefficient per column, and every
coefficient belonging to a non-constant column is exactly 1; a constant
column instead yields NaN (zero denominator in pearsonr), refuting the
unconditional claim. -/
theorem c8_self_correlation (sq : ℚ → ℚ) (hsq : SqrtOK sq)
    (X : List (List ℚ)) (T c : ℕ) (hT : 0 < T) (hlen : X.length = T)
    (hrect : ∀ r ∈ X, r.length = c)
    (hnc : ∀ j, j < c → ∃ a ∈ npCol X j, ∃ b ∈ npCol X j, a ≠ b) :
    (corr sq X X).length = c ∧ ∀ x ∈ corr sq X X, x = some 1 := by
  have hne : X ≠ [] := by
    intro h
    rw [h] at hlen
    simp at hlen
    omega
  have hcc : npColCount X = c := npColCount_eq X c hne hrect
  have hcorr : corr sq X X =
      (npCols X).map (fun col => pearson sq col col) := by
    unfold corr
    exact zipWith_self _ _
  constructor
  · rw [hcorr, List.length_map]
    unfold npCols
    rw [List.length_map, List.length_range, hcc]
  · intro x hx
    rw [hcorr] at hx
    obtain ⟨col, hcol, rfl⟩ := List.mem_map.mp hx
    unfold npCols at hcol
    obtain ⟨j, hjr, rfl⟩ := List.mem_map.mp hcol
    obtain ⟨a, ha, b, hb, hab⟩ := hnc j (by
      rw [← hcc]
      exact List.mem_range.mp hjr)
    exact pearson_self sq hsq _ a b ha hb hab

/-- Witness for C8 on a 2x2 matrix with non-constant columns. -/
theorem c8_self_correlation_witness :
    SqrtOK Rat.sqrt ∧
    (∀ j, j < 2 → ∃ a ∈ npCol xC8 j, ∃ b ∈ npCol xC8 j, a ≠ b) ∧
    ((corr Rat.sqrt xC8 xC8).length = 2 ∧
      ∀ x ∈ corr Rat.sqrt xC8 xC8, x = some 1) :=
  ⟨ratSqrt_ok, by decide,
    c8_self_correlation Rat.sqrt ratSqrt_ok xC8 2 2 (by decide) (by decide)
      (by decide) (by decide)⟩

/-- Counterexample to C8 as stated: for the equal pair
`X = Y = [[1], [1]]` (one constant column) the coefficient is NaN, not 1. -/
theorem c8_constant_cex :
    corr Rat.sqrt [[(1 : ℚ)], [1]] [[(1 : ℚ)], [1]] ≠ [some 1] ∧
    corr Rat.sqrt [[(1 : ℚ)], [1]] [[(1 : ℚ)], [1]] = [none] := by
  constructor
  · with_unfolding_all decide
  · with_unfolding_all decide

/-- C9: whenever the observed-observed block `K_aa` is the identity, the
pseudo-inverse factor is the identity (`pinv 1 = 1`, proved via Decell's
algorithm) and drops out: the reconstruction equals the squeeze of
`(K_ba · Yᵀ)ᵀ`. -/
theorem c9_identity_kaa {L T : ℕ} (sq : ℚ → ℚ)
    (M : Matrix (Fin L) (Fin L) ℚ) (known : List ℕ)
    (obs : Matrix (Fin T) (Fin known.length) ℚ)
    (hval : ∀ i ∈ known, i < L) (hnd : known.Nodup)
    (hK : known.length < L) (hid : KaaOf M known = 1) :
    reconFromModel sq M known obs =
      npSqueeze (transRV (mulQR (KbaOf M known)
        (transRV (zscoreM sq obs)))) := by
  unfold reconFromModel reconEst
  rw [hid, pinv_one, Matrix.mul_one]

/-- Witness for C9: identity model on 3 locations, observed `[0, 2]`. -/
theorem c9_identity_kaa_witness :
    KaaOf (1 : Matrix (Fin 3) (Fin 3) ℚ) [0, 2] = 1 ∧
    reconFromModel Rat.sqrt (1 : Matrix (Fin 3) (Fin 3) ℚ) [0, 2] oC9 =
      npSqueeze (transRV (mulQR (KbaOf (1 : Matrix (Fin 3) (Fin 3) ℚ) [0, 2])
        (transRV (zscoreM Rat.sqrt oC9)))) :=
  ⟨by with_unfolding_all decide,
    c9_identity_kaa Rat.sqrt (1 : Matrix (Fin 3) (Fin 3) ℚ) [0, 2] oC9
      (by decide) (by decide) (by decide)
      (by with_unfolding_all decide)⟩

/-- C10: for rectangular inputs over the same `T ≥ 1` rows with `c1 ≠ c2`
columns, the metric is total: `zip` truncates to `min c1 c2` coefficients,
pairing column `i` of `X` with column `i` of `Y` and silently ignoring the
surplus columns of the wider matrix. -/
theorem c10_zip_truncation (sq : ℚ → ℚ) (X Y : List (List ℚ))
    (T c1 c2 : ℕ) (hT : 0 < T) (hX : X.length = T) (hY : Y.length = T)
    (hXr : ∀ r ∈ X, r.length = c1) (hYr : ∀ r ∈ Y, r.length = c2)
    (hne : c1 ≠ c2) :
    (corr sq X Y).length = min c1 c2 ∧
    ∀ j (hj : j < (corr sq X Y).length),
      (corr sq X Y).get ⟨j, hj⟩ = pearson sq (npCol X j) (npCol Y j) := by
  have hneX : X ≠ [] := by
    intro h
    rw [h] at hX
    simp at hX
    omega
  have hneY : Y ≠ [] := by
    intro h
    rw [h] at hY
    simp at hY
    omega
  have hc1 : npColCount X = c1 := npColCount_eq X c1 hneX hXr
  have hc2 : npColCount Y = c2 := npColCount_eq Y c2 hneY hYr
  have hlX : (npCols X).length = c1 := by
    unfold npCols
    rw [List.length_map, List.length_range, hc1]
  have hlY : (npCols Y).length = c2 := by
    unfold npCols
    rw [List.length_map, List.length_range, hc2]
  constructor
  · unfold corr
    rw [List.length_zipWith, hlX, hlY]
  · intro j hj
    unfold corr at hj ⊢
    rw [List.get_eq_getElem, List.getElem_zipWith]
    simp [npCols, List.getElem_map, List.getElem_range]

/-- Witness for C10: `c1 = 2`, `c2 = 1`, one coefficient returned. -/
theorem c10_zip_truncation_witness :
    (corr Rat.sqrt xC10 yC10).length = min 2 1 ∧
    ∀ j (hj : j < (corr Rat.sqrt xC10 yC10).length),
      (corr Rat.sqrt xC10 yC10).get ⟨j, hj⟩ =
        pearson Rat.sqrt (npCol xC10 j) (npCol yC10 j) :=
  c10_zip_truncation Rat.sqrt xC10 yC10 2 2 1 (by decide) (by decide)
    (by decide) (by decide) (by decide) (by decide)

end SupereegSpec
